import Mathlib

set_option linter.unusedVariables false

/-!
Verification of the heap-sort implementation in
src/out-of-date/cpp/sorting/heap_sort.cpp.

The C++ translation unit holds two process-wide globals (int length, int
heap_size) and three functions operating on an int array with 1-based
indexing (index 0 is a sentinel slot):

  heapfy(a, i)    : sift the element at index i down until the max-heap
                    property holds for the subtree rooted at i
                    (reads the global heap_size);
  build(a, n)     : set heap_size = length = n, write the sentinel -1 at
                    a[0], then heapfy every internal node from n/2 down to 1;
  heapsort(a, n)  : build, then repeatedly swap a[1] with a[heap_size],
                    decrement heap_size and heapfy the root.

Arrays are modelled as total functions Nat → Int (the claims quantify over
nonnegative n, so Nat indices and mathematical Int values are used), and
the two globals are carried in an explicit state record.
-/

namespace HeapSortCpp

/-- The mutable state of the translation unit: the two global variables
together with the backing array. -/
structure HeapState where
  length : Nat
  heap_size : Nat
  a : Nat → Int

/-- parent(i) in the source: i >> 1. -/
def parent (i : Nat) : Nat := i / 2

/-- left(i) in the source: i << 1. -/
def left (i : Nat) : Nat := 2 * i

/-- right(i) in the source: (i << 1) + 1. -/
def right (i : Nat) : Nat := 2 * i + 1

/-- Pointwise array update a[i] = v. -/
def upd (a : Nat → Int) (i : Nat) (v : Int) : Nat → Int :=
  fun k => if k = i then v else a k

/-- The three-assignment swap pattern (tmp = a[i]; a[i] = a[j]; a[j] = tmp)
used by both heapfy and heapsort. -/
def swap (a : Nat → Int) (i j : Nat) : Nat → Int :=
  fun k => if k = i then a j else if k = j then a i else a k

/-- The index selected by the two guarded comparisons at the start of
heapfy: the index among i, left(i), right(i) (children only when within
heap_size) holding the largest value, with ties resolved exactly as the
two if statements of the source do. -/
def childMax (a : Nat → Int) (n i : Nat) : Nat :=
  let l1 := if left i ≤ n ∧ a i < a (left i) then left i else i
  if right i ≤ n ∧ a l1 < a (right i) then right i else l1

lemma childMax_ne {a : Nat → Int} {n i : Nat} (h : childMax a n i ≠ i) :
    i < childMax a n i ∧ childMax a n i ≤ n := by
  simp only [childMax, left, right] at h ⊢
  split_ifs at h ⊢ with h1 h2 h2
  · exact ⟨by omega, h2.1⟩
  · have := h1.1
    have hi : i ≠ 0 := by
      intro h0
      apply h
      omega
    exact ⟨by omega, by omega⟩
  · exact ⟨by omega, h2.1⟩
  · exact absurd rfl h

/-- heapfy from the source (recursion on the selected child, which is
strictly below the current node and at most heap_size away). -/
def heapfy (a : Nat → Int) (n i : Nat) : Nat → Int :=
  if h : childMax a n i = i then a
  else heapfy (swap a i (childMax a n i)) n (childMax a n i)
termination_by n + 1 - i
decreasing_by
  have hlt := childMax_ne h
  omega

lemma heapfy_self {a : Nat → Int} {n i : Nat} (h : childMax a n i = i) :
    heapfy a n i = a := by
  rw [heapfy, dif_pos h]

lemma heapfy_rec {a : Nat → Int} {n i : Nat} (h : childMax a n i ≠ i) :
    heapfy a n i = heapfy (swap a i (childMax a n i)) n (childMax a n i) := by
  conv_lhs => rw [heapfy]
  rw [dif_neg h]

/-- Fuel-indexed version of heapfy, used to state termination: the result
is none when the recursion has not bottomed out within the given number of
steps. -/
def heapfyFuel : Nat → (Nat → Int) → Nat → Nat → Option (Nat → Int)
  | 0, _, _, _ => none
  | f+1, a, n, i =>
    if childMax a n i = i then some a
    else heapfyFuel f (swap a i (childMax a n i)) n (childMax a n i)

/-- The loop of build: heapfy at indices k, k-1, ..., 1 with heap_size n. -/
def buildLoop (n : Nat) : (Nat → Int) → Nat → (Nat → Int)
  | a, 0 => a
  | a, k+1 => buildLoop n (heapfy a n (k+1)) k

/-- build from the source: heap_size = length = n; a[0] = -1; then heapfy
the internal nodes n/2 down to 1. -/
def build (s : HeapState) (n : Nat) : HeapState :=
  { length := n, heap_size := n, a := buildLoop n (upd s.a 0 (-1)) (n / 2) }

/-- The loop of heapsort, indexed by the current value of the global
heap_size (the loop variable i stays 1): swap a[heap_size] with a[1],
decrement heap_size, heapfy the root; returns the final array together
with the final value of heap_size. -/
def sortLoop : (Nat → Int) → Nat → (Nat → Int) × Nat
  | a, 0 => (a, 0)
  | a, hs+1 => sortLoop (heapfy (swap a (hs+1) 1) hs 1) hs

/-- heapsort from the source: build, then run the extraction loop starting
from heap_size = n. -/
def heapsort (s : HeapState) (n : Nat) : HeapState :=
  let s1 := build s n
  let p := sortLoop s1.a s1.heap_size
  { length := s1.length, heap_size := p.2, a := p.1 }

/-! ### The subtree (descendant) relation on 1-based indices -/

/-- Fuel-indexed test deciding whether j lies in the subtree rooted at i,
by walking from j to the root through the parent map j / 2.  Structural in
the fuel so that the kernel can evaluate it. -/
def inSubF : Nat → Nat → Nat → Bool
  | 0, i, j => i == j
  | f+1, i, j => if j = i then true else if j ≤ i then false else inSubF f i (j / 2)

/-- j lies in the subtree rooted at i (i itself included). -/
def inSub (i j : Nat) : Bool := inSubF j i j

lemma inSubF_zero (i f : Nat) : inSubF f i 0 = (i == 0) := by
  cases f with
  | zero => rfl
  | succ f =>
    cases i with
    | zero => rfl
    | succ i => rfl

lemma inSubF_fuel (i : Nat) : ∀ j f g, j ≤ f → j ≤ g → inSubF f i j = inSubF g i j := by
  intro j
  induction j using Nat.strong_induction_on with
  | _ j ih =>
    intro f g hf hg
    cases j with
    | zero => rw [inSubF_zero, inSubF_zero]
    | succ j =>
      cases f with
      | zero => omega
      | succ f =>
        cases g with
        | zero => omega
        | succ g =>
          simp only [inSubF]
          by_cases h1 : j + 1 = i
          · simp [h1]
          · by_cases h2 : j + 1 ≤ i
            · simp [h1, h2]
            · simp only [h1, h2, if_false]
              exact ih ((j+1)/2) (by omega) f g (by omega) (by omega)

lemma inSub_unfold (i j : Nat) :
    inSub i j = if j = i then true else if j ≤ i then false else inSub i (j / 2) := by
  cases j with
  | zero =>
    cases i with
    | zero => rfl
    | succ i => rfl
  | succ j =>
    show inSubF (j+1) i (j+1) = _
    simp only [inSubF]
    by_cases h1 : j + 1 = i
    · simp [h1]
    · by_cases h2 : j + 1 ≤ i
      · simp [h1, h2]
      · simp only [h1, h2, if_false]
        exact inSubF_fuel i ((j+1)/2) j ((j+1)/2) (by omega) (by omega)

lemma inSub_self (i : Nat) : inSub i i = true := by
  rw [inSub_unfold]
  simp

lemma inSub_le {i j : Nat} (h : inSub i j = true) : i ≤ j := by
  rw [inSub_unfold] at h
  by_cases h1 : j = i
  · omega
  · by_cases h2 : j ≤ i
    · simp [h1, h2] at h
    · omega

lemma inSub_step {r j : Nat} (h : inSub r (j / 2) = true) : inSub r j = true := by
  rw [inSub_unfold]
  by_cases h1 : j = r
  · simp [h1]
  · by_cases h2 : j ≤ r
    · have := inSub_le h
      have := Nat.div_le_self j 2
      omega
    · simp [h1, h2, h]

lemma inSub_trans {i m j : Nat} (h1 : inSub i m = true) (h2 : inSub m j = true) :
    inSub i j = true := by
  induction j using Nat.strong_induction_on with
  | _ j ih =>
    rw [inSub_unfold] at h2
    by_cases e1 : j = m
    · subst e1; exact h1
    · by_cases e2 : j ≤ m
      · simp [e1, e2] at h2
      · simp only [e1, e2, if_false] at h2
        have hm := inSub_le h1
        exact inSub_step (ih (j/2) (by omega) h2)

lemma inSub_child_l (i : Nat) : inSub i (2 * i) = true := by
  apply inSub_step
  have : 2 * i / 2 = i := by omega
  rw [this]
  exact inSub_self i

lemma inSub_child_r (i : Nat) : inSub i (2 * i + 1) = true := by
  apply inSub_step
  have : (2 * i + 1) / 2 = i := by omega
  rw [this]
  exact inSub_self i

lemma inSub_cases {i j : Nat} (h : inSub i j = true) :
    j = i ∨ inSub (2 * i) j = true ∨ inSub (2 * i + 1) j = true := by
  induction j using Nat.strong_induction_on with
  | _ j ih =>
    rw [inSub_unfold] at h
    by_cases e1 : j = i
    · exact Or.inl e1
    · by_cases e2 : j ≤ i
      · simp [e1, e2] at h
      · simp only [e1, e2, if_false] at h
        rcases ih (j/2) (by omega) h with hp | hp | hp
        · have : j = 2 * i ∨ j = 2 * i + 1 := by omega
          rcases this with e | e
          · exact Or.inr (Or.inl (e ▸ inSub_self _))
          · exact Or.inr (Or.inr (e ▸ inSub_self _))
        · exact Or.inr (Or.inl (inSub_step hp))
        · exact Or.inr (Or.inr (inSub_step hp))

lemma inSub_sibling {i : Nat} (hi : 1 ≤ i) :
    ∀ j, inSub (2 * i) j = true → inSub (2 * i + 1) j = true → False := by
  intro j
  induction j using Nat.strong_induction_on with
  | _ j ih =>
    intro h1 h2
    rw [inSub_unfold] at h1 h2
    by_cases e1 : j = 2 * i
    · have e2 : ¬ j = 2 * i + 1 := by omega
      have e3 : j ≤ 2 * i + 1 := by omega
      simp [e2, e3] at h2
    · by_cases e2 : j = 2 * i + 1
      · have e3 : ¬ j ≤ 2 * i := by omega
        simp only [e1, e3, if_false] at h1
        have := inSub_le h1
        omega
      · by_cases e3 : j ≤ 2 * i
        · simp [e1, e3] at h1
        · have e4 : ¬ j ≤ 2 * i + 1 := by omega
          simp only [e1, e3, if_false] at h1
          simp only [e2, e4, if_false] at h2
          exact ih (j/2) (by omega) h1 h2

lemma inSub_compare {x y : Nat} :
    ∀ m, inSub x m = true → inSub y m = true →
      inSub x y = true ∨ inSub y x = true := by
  intro m
  induction m using Nat.strong_induction_on with
  | _ m ih =>
    intro h1 h2
    by_cases e1 : m = x
    · subst e1; exact Or.inr h2
    · by_cases e2 : m = y
      · subst e2; exact Or.inl h1
      · rw [inSub_unfold] at h1 h2
        by_cases e3 : m ≤ x
        · simp [e1, e3] at h1
        · by_cases e4 : m ≤ y
          · simp [e2, e4] at h2
          · simp only [e1, e3, if_false] at h1
            simp only [e2, e4, if_false] at h2
            exact ih (m/2) (by omega) h1 h2

lemma inSub_one {k : Nat} (h : 1 ≤ k) : inSub 1 k = true := by
  induction k using Nat.strong_induction_on with
  | _ k ih =>
    by_cases e : k = 1
    · exact e ▸ inSub_self 1
    · exact inSub_step (ih (k/2) (by omega) (by omega))

/-! ### Characterisation of the child-selection step of heapfy -/

lemma childMax_mem (a : Nat → Int) (n i : Nat) :
    childMax a n i = i ∨ childMax a n i = 2 * i ∨ childMax a n i = 2 * i + 1 := by
  simp only [childMax, left, right]
  split_ifs <;> tauto

lemma childMax_of_gt {a : Nat → Int} {n i : Nat} (h : n < i) : childMax a n i = i := by
  have hi : 1 ≤ i := by omega
  simp only [childMax, left, right]
  rw [if_neg (fun hc => by omega : ¬ (2 * i ≤ n ∧ a i < a (2 * i)))]
  rw [if_neg (fun hc => by omega : ¬ (2 * i + 1 ≤ n ∧ a i < a (2 * i + 1)))]

lemma childMax_self_le {a : Nat → Int} {n i : Nat} (hi : 1 ≤ i)
    (h : childMax a n i = i) :
    (2 * i ≤ n → a (2 * i) ≤ a i) ∧ (2 * i + 1 ≤ n → a (2 * i + 1) ≤ a i) := by
  simp only [childMax, left, right] at h
  split_ifs at h with h1 h2 h2
  · exact absurd h (by omega)
  · exact absurd h (by omega)
  · exact absurd h (by omega)
  · push_neg at h1 h2
    exact ⟨h1, h2⟩

lemma childMax_spec_ne {a : Nat → Int} {n i : Nat} (hi : 1 ≤ i)
    (h : childMax a n i ≠ i) :
    i < childMax a n i ∧ childMax a n i ≤ n ∧ a i < a (childMax a n i) ∧
      (childMax a n i = 2 * i ∨ childMax a n i = 2 * i + 1) ∧
      (2 * i ≤ n → a (2 * i) ≤ a (childMax a n i)) ∧
      (2 * i + 1 ≤ n → a (2 * i + 1) ≤ a (childMax a n i)) := by
  simp only [childMax, left, right] at h ⊢
  split_ifs at h ⊢ with h1 h2 h2
  · exact ⟨by omega, h2.1, lt_trans h1.2 h2.2, Or.inr rfl,
      fun _ => le_of_lt h2.2, fun _ => le_refl _⟩
  · push_neg at h2
    exact ⟨by omega, h1.1, h1.2, Or.inl rfl, fun _ => le_refl _, h2⟩
  · push_neg at h1
    exact ⟨by omega, h2.1, h2.2, Or.inr rfl,
      fun hg => le_trans (h1 hg) (le_of_lt h2.2), fun _ => le_refl _⟩
  · exact absurd rfl h

/-! ### The max-heap property, globally and per subtree -/

/-- The subtree rooted at r satisfies the max-heap property inside the
live region [1, n]: every live node of that subtree is at least as large
as each of its live children. -/
def HeapAt (a : Nat → Int) (n r : Nat) : Prop :=
  ∀ j ∈ Finset.Icc 1 n, inSub r j = true →
    (2 * j ≤ n → a (2 * j) ≤ a j) ∧ (2 * j + 1 ≤ n → a (2 * j + 1) ≤ a j)

instance (a : Nat → Int) (n r : Nat) : Decidable (HeapAt a n r) := by
  unfold HeapAt
  infer_instance

lemma heapAt_iff {a : Nat → Int} {n r : Nat} :
    HeapAt a n r ↔ ∀ j, 1 ≤ j → j ≤ n → inSub r j = true →
      (2 * j ≤ n → a (2 * j) ≤ a j) ∧ (2 * j + 1 ≤ n → a (2 * j + 1) ≤ a j) := by
  constructor
  · intro h j h1 h2 hs
    exact h j (Finset.mem_Icc.mpr ⟨h1, h2⟩) hs
  · intro h j hj hs
    obtain ⟨h1, h2⟩ := Finset.mem_Icc.mp hj
    exact h j h1 h2 hs

/-- The global max-heap property over the live region [1, n], exactly as
the spec states it: storage[i/2] >= storage[i] for every i in [2, n]. -/
def IsHeap (a : Nat → Int) (n : Nat) : Prop :=
  ∀ i, 2 ≤ i → i ≤ n → a i ≤ a (i / 2)

lemma isHeap_mono {a : Nat → Int} {m n : Nat} (hmn : m ≤ n) (h : IsHeap a n) :
    IsHeap a m :=
  fun i h2 hm => h i h2 (le_trans hm hmn)

lemma isHeap_heapAt {a : Nat → Int} {n : Nat} (h : IsHeap a n) (r : Nat) :
    HeapAt a n r := by
  rw [heapAt_iff]
  intro j h1 h2 _
  constructor
  · intro hg
    have h5 := h (2 * j) (by omega) hg
    rw [show 2 * j / 2 = j from by omega] at h5
    exact h5
  · intro hg
    have h5 := h (2 * j + 1) (by omega) hg
    rw [show (2 * j + 1) / 2 = j from by omega] at h5
    exact h5

lemma heapAt_one_isHeap {a : Nat → Int} {n : Nat} (h : HeapAt a n 1) :
    IsHeap a n := by
  intro i h2 hn
  rw [heapAt_iff] at h
  have hp := h (i / 2) (by omega) (by omega) (inSub_one (by omega))
  have hcase : i = 2 * (i / 2) ∨ i = 2 * (i / 2) + 1 := by omega
  rcases hcase with e | e
  · have h5 := hp.1 (by omega)
    rw [← e] at h5
    exact h5
  · have h5 := hp.2 (by omega)
    rw [← e] at h5
    exact h5

lemma heapAt_sub {a : Nat → Int} {n r s : Nat} (h : HeapAt a n r)
    (hs : inSub r s = true) : HeapAt a n s := by
  rw [heapAt_iff] at h ⊢
  intro j h1 h2 hj
  exact h j h1 h2 (inSub_trans hs hj)

lemma heapAt_congr {a b : Nat → Int} {n r : Nat}
    (hab : ∀ m, inSub r m = true → 1 ≤ m → m ≤ n → b m = a m)
    (h : HeapAt a n r) : HeapAt b n r := by
  rw [heapAt_iff] at h ⊢
  intro j h1 h2 hj
  have e0 := hab j hj h1 h2
  have hp := h j h1 h2 hj
  constructor
  · intro hg
    have e1 := hab (2 * j) (inSub_trans hj (inSub_child_l j)) (by omega) hg
    rw [e0, e1]
    exact hp.1 hg
  · intro hg
    have e1 := hab (2 * j + 1) (inSub_trans hj (inSub_child_r j)) (by omega) hg
    rw [e0, e1]
    exact hp.2 hg

lemma heapAt_dominate {a : Nat → Int} {n r : Nat} (h : HeapAt a n r)
    (hr : 1 ≤ r) : ∀ j, inSub r j = true → j ≤ n → a j ≤ a r := by
  intro j
  induction j using Nat.strong_induction_on with
  | _ j ih =>
    intro hj hn
    by_cases e : j = r
    · rw [e]
    · have hlt : r < j := lt_of_le_of_ne (inSub_le hj) (Ne.symm e)
      rw [inSub_unfold] at hj
      rw [if_neg e, if_neg (by omega : ¬ j ≤ r)] at hj
      have h1 : a j ≤ a (j / 2) := by
        rw [heapAt_iff] at h
        have hp := h (j / 2) (by have := inSub_le hj; omega) (by omega) hj
        have hcase : j = 2 * (j / 2) ∨ j = 2 * (j / 2) + 1 := by omega
        rcases hcase with e1 | e1
        · have h5 := hp.1 (by omega)
          rw [← e1] at h5
          exact h5
        · have h5 := hp.2 (by omega)
          rw [← e1] at h5
          exact h5
      exact le_trans h1 (ih (j / 2) (by omega) hj (by omega))

/-! ### Frame and bound lemmas for heapfy -/

lemma heapfy_frame_aux (n : Nat) :
    ∀ K a i, n + 1 ≤ K + i → ∀ j, inSub i j = false → heapfy a n i j = a j := by
  intro K
  induction K with
  | zero =>
    intro a i hK j hj
    rw [heapfy_self (childMax_of_gt (by omega))]
  | succ K ih =>
    intro a i hK j hj
    by_cases h : childMax a n i = i
    · rw [heapfy_self h]
    · obtain ⟨hlt, hle⟩ := childMax_ne h
      rw [heapfy_rec h]
      have hiL : inSub i (childMax a n i) = true := by
        rcases childMax_mem a n i with e | e | e
        · exact absurd e h
        · rw [e]
          exact inSub_child_l i
        · rw [e]
          exact inSub_child_r i
      have hLj : inSub (childMax a n i) j = false := by
        cases hc : inSub (childMax a n i) j
        · rfl
        · rw [inSub_trans hiL hc] at hj
          exact absurd hj (by simp)
      rw [ih (swap a i (childMax a n i)) (childMax a n i) (by omega) j hLj]
      have hji : j ≠ i := fun e => by
        rw [e, inSub_self] at hj
        exact absurd hj (by simp)
      have hjL : j ≠ childMax a n i := fun e => by
        rw [e, hiL] at hj
        exact absurd hj (by simp)
      simp [swap, hji, hjL]

lemma heapfy_frame (a : Nat → Int) (n i : Nat) :
    ∀ j, inSub i j = false → heapfy a n i j = a j :=
  heapfy_frame_aux n (n + 1) a i (by omega)

lemma heapfy_high_aux (n : Nat) :
    ∀ K a i, n + 1 ≤ K + i → ∀ j, n < j → heapfy a n i j = a j := by
  intro K
  induction K with
  | zero =>
    intro a i hK j hj
    rw [heapfy_self (childMax_of_gt (by omega))]
  | succ K ih =>
    intro a i hK j hj
    by_cases h : childMax a n i = i
    · rw [heapfy_self h]
    · obtain ⟨hlt, hle⟩ := childMax_ne h
      rw [heapfy_rec h]
      rw [ih (swap a i (childMax a n i)) (childMax a n i) (by omega) j hj]
      simp [swap, show j ≠ i by omega, show j ≠ childMax a n i by omega]

lemma heapfy_high (a : Nat → Int) (n i : Nat) :
    ∀ j, n < j → heapfy a n i j = a j :=
  heapfy_high_aux n (n + 1) a i (by omega)

lemma heapfy_bound_aux (n : Nat) (M : Int) :
    ∀ K a i, n + 1 ≤ K + i → 1 ≤ i →
      (∀ k, inSub i k = true → k ≤ n → a k ≤ M) →
      ∀ j, inSub i j = true → j ≤ n → heapfy a n i j ≤ M := by
  intro K
  induction K with
  | zero =>
    intro a i hK hi hb j hj hn
    exact absurd (le_trans (inSub_le hj) hn) (by omega)
  | succ K ih =>
    intro a i hK hi hb j hj hn
    by_cases h : childMax a n i = i
    · rw [heapfy_self h]
      exact hb j hj hn
    · obtain ⟨hlt, hle, hval, hmem, hbl, hbr⟩ := childMax_spec_ne hi h
      have hiL : inSub i (childMax a n i) = true := by
        rcases hmem with e | e
        · rw [e]
          exact inSub_child_l i
        · rw [e]
          exact inSub_child_r i
      rw [heapfy_rec h]
      have hprem : ∀ k, inSub (childMax a n i) k = true → k ≤ n →
          swap a i (childMax a n i) k ≤ M := by
        intro k hk hkn
        by_cases e2 : k = childMax a n i
        · rw [e2]
          have : swap a i (childMax a n i) (childMax a n i) = a i := by
            simp [swap, show childMax a n i ≠ i from h]
          rw [this]
          exact hb i (inSub_self i) (by omega)
        · have e1 : k ≠ i := fun e => by
            rw [e] at hk
            exact absurd (inSub_le hk) (by omega)
          have hv : swap a i (childMax a n i) k = a k := by
            simp [swap, e1, e2]
          rw [hv]
          exact hb k (inSub_trans hiL hk) hkn
      by_cases hInL : inSub (childMax a n i) j = true
      · exact ih (swap a i (childMax a n i)) (childMax a n i) (by omega)
          (by omega) hprem j hInL hn
      · have hLj : inSub (childMax a n i) j = false := by
          cases hc : inSub (childMax a n i) j
          · rfl
          · exact absurd hc hInL
        rw [heapfy_frame _ n _ j hLj]
        by_cases e1 : j = i
        · rw [e1]
          have : swap a i (childMax a n i) i = a (childMax a n i) := by
            simp [swap]
          rw [this]
          exact hb (childMax a n i) hiL hle
        · have e2 : j ≠ childMax a n i := fun e => hInL (e ▸ inSub_self _)
          have hv : swap a i (childMax a n i) j = a j := by
            simp [swap, e1, e2]
          rw [hv]
          exact hb j hj hn

lemma heapfy_bound {n : Nat} {M : Int} {a : Nat → Int} {i : Nat} (hi : 1 ≤ i)
    (hb : ∀ k, inSub i k = true → k ≤ n → a k ≤ M) :
    ∀ j, inSub i j = true → j ≤ n → heapfy a n i j ≤ M :=
  heapfy_bound_aux n M (n + 1) a i (by omega) hi hb

/-! ### heapfy reads only the live region -/

lemma childMax_congr {a b : Nat → Int} {n : Nat}
    (hab : ∀ k, 1 ≤ k → k ≤ n → a k = b k) {i : Nat} (hi : 1 ≤ i) :
    childMax a n i = childMax b n i := by
  by_cases hin : i ≤ n
  · simp only [childMax, left, right]
    have c1 : (2 * i ≤ n ∧ a i < a (2 * i)) ↔ (2 * i ≤ n ∧ b i < b (2 * i)) := by
      constructor <;> rintro ⟨g, hv⟩ <;> refine ⟨g, ?_⟩
      · rwa [hab i hi hin, hab (2 * i) (by omega) g] at hv
      · rwa [← hab i hi hin, ← hab (2 * i) (by omega) g] at hv
    have el1 : (if 2 * i ≤ n ∧ a i < a (2 * i) then 2 * i else i)
        = (if 2 * i ≤ n ∧ b i < b (2 * i) then 2 * i else i) :=
      if_congr c1 rfl rfl
    have hl1v : a (if 2 * i ≤ n ∧ a i < a (2 * i) then 2 * i else i)
        = b (if 2 * i ≤ n ∧ b i < b (2 * i) then 2 * i else i) := by
      rw [← el1]
      by_cases hc1 : 2 * i ≤ n ∧ a i < a (2 * i)
      · rw [if_pos hc1]
        exact hab (2 * i) (by omega) hc1.1
      · rw [if_neg hc1]
        exact hab i hi hin
    have c2 : (2 * i + 1 ≤ n ∧
          a (if 2 * i ≤ n ∧ a i < a (2 * i) then 2 * i else i) < a (2 * i + 1))
        ↔ (2 * i + 1 ≤ n ∧
          b (if 2 * i ≤ n ∧ b i < b (2 * i) then 2 * i else i) < b (2 * i + 1)) := by
      constructor <;> rintro ⟨g, hv⟩ <;> refine ⟨g, ?_⟩
      · rwa [hl1v, hab (2 * i + 1) (by omega) g] at hv
      · rwa [← hl1v, ← hab (2 * i + 1) (by omega) g] at hv
    exact if_congr c2 rfl el1
  · rw [childMax_of_gt (by omega), childMax_of_gt (by omega)]

lemma heapfy_congr_aux (n : Nat) :
    ∀ K a b i, n + 1 ≤ K + i → 1 ≤ i →
      (∀ k, 1 ≤ k → k ≤ n → a k = b k) →
      ∀ j, 1 ≤ j → j ≤ n → heapfy a n i j = heapfy b n i j := by
  intro K
  induction K with
  | zero =>
    intro a b i hK hi hab j hj1 hj2
    rw [heapfy_self (childMax_of_gt (by omega)),
      heapfy_self (childMax_of_gt (by omega))]
    exact hab j hj1 hj2
  | succ K ih =>
    intro a b i hK hi hab j hj1 hj2
    have hcm := childMax_congr hab hi
    by_cases h : childMax a n i = i
    · have hb2 : childMax b n i = i := by
        rw [← hcm]
        exact h
      rw [heapfy_self h, heapfy_self hb2]
      exact hab j hj1 hj2
    · have hb2 : childMax b n i ≠ i := by
        rw [← hcm]
        exact h
      obtain ⟨hlt, hle⟩ := childMax_ne h
      rw [heapfy_rec h, heapfy_rec hb2, ← hcm]
      refine ih (swap a i (childMax a n i)) (swap b i (childMax a n i))
        (childMax a n i) (by omega) (by omega) ?_ j hj1 hj2
      intro k h1 h2
      by_cases e1 : k = i
      · simp only [swap, e1, if_pos rfl]
        exact hab (childMax a n i) (by omega) (by omega)
      · by_cases e2 : k = childMax a n i
        · rw [e2]
          have hva : swap a i (childMax a n i) (childMax a n i) = a i := by
            simp [swap, h]
          have hvb : swap b i (childMax a n i) (childMax a n i) = b i := by
            simp [swap, h]
          rw [hva, hvb]
          exact hab i hi (by omega)
        · simp only [swap, if_neg e1, if_neg e2]
          exact hab k h1 h2

lemma heapfy_congr {a b : Nat → Int} {n i : Nat} (hi : 1 ≤ i)
    (hab : ∀ k, 1 ≤ k → k ≤ n → a k = b k) :
    ∀ j, 1 ≤ j → j ≤ n → heapfy a n i j = heapfy b n i j :=
  heapfy_congr_aux n (n + 1) a b i (by omega) hi hab

/-! ### heapfy restores the heap property of the subtree at its root -/

lemma heapfy_heapAt_step {a : Nat → Int} {n i L S : Nat} (hi : 1 ≤ i)
    (hLS : L = 2 * i ∧ S = 2 * i + 1 ∨ L = 2 * i + 1 ∧ S = 2 * i)
    (hiL : i < L) (hLn : L ≤ n) (hval : a i < a L)
    (hSb : S ≤ n → a S ≤ a L)
    (hHL : HeapAt a n L) (hHS : HeapAt a n S)
    (hrec : HeapAt (heapfy (swap a i L) n L) n L) :
    HeapAt (heapfy (swap a i L) n L) n i := by
  have hiS : i < S := by
    rcases hLS with ⟨_, e⟩ | ⟨_, e⟩ <;> omega
  have hSL_disj : ∀ m, inSub S m = true → inSub L m = false := by
    intro m hm
    cases hc : inSub L m
    · rfl
    · exfalso
      rcases hLS with ⟨eL, eS⟩ | ⟨eL, eS⟩
      · exact inSub_sibling hi m (eL ▸ hc) (eS ▸ hm)
      · exact inSub_sibling hi m (eS ▸ hm) (eL ▸ hc)
  set r := heapfy (swap a i L) n L with hrdef
  have hKeep : ∀ m, inSub L m = false → m ≠ i → r m = a m := by
    intro m hm hmi
    have hmL : m ≠ L := fun e => by
      rw [e, inSub_self] at hm
      exact absurd hm (by simp)
    rw [hrdef, heapfy_frame _ n L m hm]
    simp [swap, hmi, hmL]
  have hri : r i = a L := by
    have hfr : inSub L i = false := by
      cases hc : inSub L i
      · rfl
      · exact absurd (inSub_le hc) (by omega)
    rw [hrdef, heapfy_frame _ n L i hfr]
    simp [swap]
  have hrbound : ∀ m, inSub L m = true → m ≤ n → r m ≤ a L := by
    intro m hm hmn
    refine heapfy_bound (by omega) ?_ m hm hmn
    intro k hk hkn
    by_cases e2 : k = L
    · rw [e2]
      have hv : swap a i L L = a i := by
        simp [swap, show L ≠ i by omega]
      rw [hv]
      exact le_of_lt hval
    · have e1 : k ≠ i := fun e => by
        rw [e] at hk
        exact absurd (inSub_le hk) (by omega)
      have hv : swap a i L k = a k := by
        simp [swap, e1, e2]
      rw [hv]
      exact heapAt_dominate hHL (by omega) k hk hkn
  have hHS_r : HeapAt r n S := by
    refine heapAt_congr ?_ hHS
    intro m hm h1 h2
    refine hKeep m (hSL_disj m hm) ?_
    have := inSub_le hm
    omega
  rw [heapAt_iff]
  intro j hj1 hj2 hj
  rcases inSub_cases hj with e | hs | hs
  · rw [e]
    have hL_le : r L ≤ r i := by
      rw [hri]
      exact hrbound L (inSub_self L) hLn
    have hS_le : S ≤ n → r S ≤ r i := by
      intro hSn
      rw [hri, hKeep S (hSL_disj S (inSub_self S)) (by omega)]
      exact hSb hSn
    rcases hLS with ⟨eL, eS⟩ | ⟨eL, eS⟩
    · constructor
      · intro hg
        rw [← eL]
        exact hL_le
      · intro hg
        rw [← eS]
        exact hS_le (by omega)
    · constructor
      · intro hg
        rw [← eS]
        exact hS_le (by omega)
      · intro hg
        rw [← eL]
        exact hL_le
  · rcases hLS with ⟨eL, eS⟩ | ⟨eL, eS⟩
    · exact heapAt_iff.mp hrec j hj1 hj2 (by rw [eL]; exact hs)
    · exact heapAt_iff.mp hHS_r j hj1 hj2 (by rw [eS]; exact hs)
  · rcases hLS with ⟨eL, eS⟩ | ⟨eL, eS⟩
    · exact heapAt_iff.mp hHS_r j hj1 hj2 (by rw [eS]; exact hs)
    · exact heapAt_iff.mp hrec j hj1 hj2 (by rw [eL]; exact hs)

lemma heapfy_heapAt_aux (n : Nat) :
    ∀ K a i, n + 1 ≤ K + i → 1 ≤ i →
      HeapAt a n (2 * i) → HeapAt a n (2 * i + 1) →
      HeapAt (heapfy a n i) n i := by
  intro K
  induction K with
  | zero =>
    intro a i hK hi hL hR
    rw [heapfy_self (childMax_of_gt (by omega)), heapAt_iff]
    intro j hj1 hj2 hj
    exact absurd (le_trans (inSub_le hj) hj2) (by omega)
  | succ K ih =>
    intro a i hK hi hL hR
    by_cases h : childMax a n i = i
    · rw [heapfy_self h, heapAt_iff]
      intro j hj1 hj2 hj
      rcases inSub_cases hj with e | hs | hs
      · rw [e]
        exact childMax_self_le hi h
      · exact heapAt_iff.mp hL j hj1 hj2 hs
      · exact heapAt_iff.mp hR j hj1 hj2 hs
    · obtain ⟨hlt, hle, hval, hmem, hbl, hbr⟩ := childMax_spec_ne hi h
      rw [heapfy_rec h]
      have hsubL : HeapAt a n (childMax a n i) := by
        rcases hmem with e | e
        · rw [e]
          exact hL
        · rw [e]
          exact hR
      have hswap_keep : ∀ m, childMax a n i < m →
          swap a i (childMax a n i) m = a m := by
        intro m hm
        simp [swap, show m ≠ i by omega, show m ≠ childMax a n i by omega]
      have hrecL : HeapAt (swap a i (childMax a n i)) n (2 * childMax a n i) := by
        refine heapAt_congr ?_ (heapAt_sub hsubL (inSub_child_l _))
        intro m hm h1 h2
        exact hswap_keep m (by have := inSub_le hm; omega)
      have hrecR : HeapAt (swap a i (childMax a n i)) n (2 * childMax a n i + 1) := by
        refine heapAt_congr ?_ (heapAt_sub hsubL (inSub_child_r _))
        intro m hm h1 h2
        exact hswap_keep m (by have := inSub_le hm; omega)
      have hrec : HeapAt (heapfy (swap a i (childMax a n i)) n (childMax a n i)) n
          (childMax a n i) :=
        ih (swap a i (childMax a n i)) (childMax a n i) (by omega) (by omega)
          hrecL hrecR
      rcases hmem with e | e
      · rw [e] at hrec hsubL hval hlt hle hbl hbr ⊢
        exact heapfy_heapAt_step hi (Or.inl ⟨rfl, rfl⟩) hlt hle hval hbr hsubL hR hrec
      · rw [e] at hrec hsubL hval hlt hle hbl hbr ⊢
        exact heapfy_heapAt_step hi (Or.inr ⟨rfl, rfl⟩) hlt hle hval hbl hsubL hL hrec

/-- heapfy is locally correct: if both child subtrees of i satisfy the
max-heap property on the live region, then after heapfy the whole subtree
rooted at i does. -/
lemma heapfy_heapAt {a : Nat → Int} {n i : Nat} (hi : 1 ≤ i)
    (hL : HeapAt a n (2 * i)) (hR : HeapAt a n (2 * i + 1)) :
    HeapAt (heapfy a n i) n i :=
  heapfy_heapAt_aux n (n + 1) a i (by omega) hi hL hR

/-! ### The build phase establishes the heap invariant -/

lemma buildLoop_heapAt (n : Nat) :
    ∀ k a, (∀ j, k + 1 ≤ j → HeapAt a n j) →
      ∀ j, 1 ≤ j → HeapAt (buildLoop n a k) n j := by
  intro k
  induction k with
  | zero =>
    intro a h j hj
    exact h j (by omega)
  | succ k ih =>
    intro a h j hj
    simp only [buildLoop]
    refine ih (heapfy a n (k + 1)) ?_ j hj
    have hAt : HeapAt (heapfy a n (k + 1)) n (k + 1) :=
      heapfy_heapAt (by omega) (h (2 * (k + 1)) (by omega)) (h (2 * (k + 1) + 1) (by omega))
    intro m hm
    by_cases e : m = k + 1
    · rw [e]
      exact hAt
    · by_cases hc : inSub (k + 1) m = true
      · exact heapAt_sub hAt hc
      · refine heapAt_congr ?_ (h m (by omega))
        intro p hp h1 h2
        have hpf : inSub (k + 1) p = false := by
          cases hx : inSub (k + 1) p
          · rfl
          · exfalso
            rcases inSub_compare p hp hx with hc1 | hc1
            · exact absurd (inSub_le hc1) (by omega)
            · exact hc hc1
        exact heapfy_frame a n (k + 1) p hpf

lemma build_heapAt (s : HeapState) (n : Nat) :
    ∀ j, 1 ≤ j → HeapAt (build s n).a n j := by
  intro j hj
  show HeapAt (buildLoop n (upd s.a 0 (-1)) (n / 2)) n j
  refine buildLoop_heapAt n (n / 2) _ ?_ j hj
  intro m hm
  rw [heapAt_iff]
  intro p h1 h2 hp
  have hpm := inSub_le hp
  constructor
  · intro hg
    exfalso
    omega
  · intro hg
    exfalso
    omega

lemma build_isHeap (s : HeapState) (n : Nat) : IsHeap (build s n).a n :=
  heapAt_one_isHeap (build_heapAt s n 1 (by omega))

/-! ### heapfy and build act as the identity on a valid heap -/

lemma heapfy_of_isHeap {a : Nat → Int} {n : Nat} (h : IsHeap a n) {i : Nat}
    (hi : 1 ≤ i) : heapfy a n i = a := by
  apply heapfy_self
  simp only [childMax, left, right]
  have h1 : ¬ (2 * i ≤ n ∧ a i < a (2 * i)) := by
    rintro ⟨g, hv⟩
    have h5 := h (2 * i) (by omega) g
    rw [show 2 * i / 2 = i from by omega] at h5
    exact absurd hv (not_lt.mpr h5)
  have h2 : ¬ (2 * i + 1 ≤ n ∧ a i < a (2 * i + 1)) := by
    rintro ⟨g, hv⟩
    have h5 := h (2 * i + 1) (by omega) g
    rw [show (2 * i + 1) / 2 = i from by omega] at h5
    exact absurd hv (not_lt.mpr h5)
  rw [if_neg h1, if_neg h2]

lemma buildLoop_of_isHeap {a : Nat → Int} {n : Nat} (h : IsHeap a n) :
    ∀ k, buildLoop n a k = a := by
  intro k
  induction k with
  | zero => rfl
  | succ k ih =>
    simp only [buildLoop]
    rw [heapfy_of_isHeap h (by omega)]
    exact ih

lemma buildLoop_zero_idx (n : Nat) : ∀ k a, buildLoop n a k 0 = a 0 := by
  intro k
  induction k with
  | zero =>
    intro a
    rfl
  | succ k ih =>
    intro a
    simp only [buildLoop]
    rw [ih (heapfy a n (k + 1))]
    apply heapfy_frame
    cases hx : inSub (k + 1) 0
    · rfl
    · exact absurd (inSub_le hx) (by omega)

lemma build_a_zero (s : HeapState) (n : Nat) : (build s n).a 0 = -1 := by
  show buildLoop n (upd s.a 0 (-1)) (n / 2) 0 = -1
  rw [buildLoop_zero_idx]
  simp [upd]

/-! ### The extraction loop of heapsort -/

lemma sortLoop_snd : ∀ hs a, (sortLoop a hs).2 = 0 := by
  intro hs
  induction hs with
  | zero =>
    intro a
    rfl
  | succ hs ih =>
    intro a
    simp only [sortLoop]
    exact ih _

lemma sortLoop_zero_idx : ∀ hs a, (sortLoop a hs).1 0 = a 0 := by
  intro hs
  induction hs with
  | zero =>
    intro a
    rfl
  | succ hs ih =>
    intro a
    simp only [sortLoop]
    rw [ih]
    rw [heapfy_frame _ hs 1 0 rfl]
    simp [swap]

lemma sortLoop_sorted (n : Nat) :
    ∀ hs a, IsHeap a hs →
      (∀ j, hs + 1 ≤ j → j < n → a j ≤ a (j + 1)) →
      (∀ p q, 1 ≤ p → p ≤ hs → hs + 1 ≤ q → q ≤ n → a p ≤ a q) →
      ∀ j, 1 ≤ j → j < n → (sortLoop a hs).1 j ≤ (sortLoop a hs).1 (j + 1) := by
  intro hs
  induction hs with
  | zero =>
    intro a hheap hsuf hpart j h1 h2
    exact hsuf j (by omega) h2
  | succ hs ih =>
    intro a hheap hsuf hpart j h1 h2
    simp only [sortLoop]
    set a1 := swap a (hs + 1) 1 with ha1
    set a2 := heapfy a1 hs 1 with ha2
    have hmax : ∀ k, 1 ≤ k → k ≤ hs + 1 → a k ≤ a 1 := by
      intro k hk1 hk2
      exact heapAt_dominate (isHeap_heapAt hheap 1) (by omega) k (inSub_one hk1) hk2
    have ha1_top : a1 (hs + 1) = a 1 := by
      rw [ha1]
      simp [swap]
    have ha1_keep : ∀ m, m ≠ hs + 1 → m ≠ 1 → a1 m = a m := by
      intro m e1 e2
      rw [ha1]
      simp [swap, e1, e2]
    have ha1_one : a1 1 = a (hs + 1) := by
      rw [ha1]
      by_cases e : (1 : Nat) = hs + 1
      · simp [swap, ← e]
      · simp [swap, e]
    have ha2_high : ∀ m, hs < m → a2 m = a1 m := by
      intro m hm
      rw [ha2]
      exact heapfy_high a1 hs 1 m hm
    have P1 : IsHeap a2 hs := by
      by_cases hhs : hs = 0
      · intro p hp1 hp2
        omega
      · apply heapAt_one_isHeap
        have h2L : HeapAt a1 hs 2 := by
          refine heapAt_congr ?_ (isHeap_heapAt (isHeap_mono (by omega) hheap) 2)
          intro m hm h1m h2m
          exact ha1_keep m (by omega) (by have := inSub_le hm; omega)
        have h3R : HeapAt a1 hs 3 := by
          refine heapAt_congr ?_ (isHeap_heapAt (isHeap_mono (by omega) hheap) 3)
          intro m hm h1m h2m
          exact ha1_keep m (by omega) (by have := inSub_le hm; omega)
        rw [ha2]
        exact heapfy_heapAt (by omega) h2L h3R
    have P2 : ∀ m, hs + 1 ≤ m → m < n → a2 m ≤ a2 (m + 1) := by
      intro m hm1 hm2
      rw [ha2_high m (by omega), ha2_high (m + 1) (by omega)]
      by_cases e : m = hs + 1
      · rw [e, ha1_top, ha1_keep (hs + 2) (by omega) (by omega)]
        exact hpart 1 (hs + 2) (by omega) (by omega) (by omega) (by omega)
      · rw [ha1_keep m (by omega) (by omega), ha1_keep (m + 1) (by omega) (by omega)]
        exact hsuf m (by omega) hm2
    have P3 : ∀ p q, 1 ≤ p → p ≤ hs → hs + 1 ≤ q → q ≤ n → a2 p ≤ a2 q := by
      intro p q hp1 hp2 hq1 hq2
      have hbound : a2 p ≤ a 1 := by
        rw [ha2]
        refine heapfy_bound (by omega) ?_ p (inSub_one hp1) hp2
        intro k hk hkn
        by_cases e : k = 1
        · rw [e, ha1_one]
          exact hmax (hs + 1) (by omega) (by omega)
        · rw [ha1_keep k (by omega) e]
          exact hmax k (by have := inSub_le hk; omega) (by omega)
      rw [ha2_high q (by omega)]
      by_cases e : q = hs + 1
      · rw [e, ha1_top]
        exact hbound
      · rw [ha1_keep q (by omega) (by omega)]
        exact le_trans hbound (hpart 1 q (by omega) (by omega) (by omega) (by omega))
    exact ih a2 P1 P2 P3 j h1 h2

/-! ### Multiset preservation -/

/-- Number of live slots in [1, n] holding the value v. -/
def cnt (a : Nat → Int) (v : Int) : Nat → Nat
  | 0 => 0
  | k+1 => cnt a v k + (if a (k + 1) = v then 1 else 0)

/-- The multiset of values stored at indices 1..n. -/
def vals (a : Nat → Int) (n : Nat) : Multiset Int :=
  (Multiset.range n).map (fun k => a (k + 1))

lemma cnt_congr (v : Int) : ∀ n (a b : Nat → Int),
    (∀ m, 1 ≤ m → m ≤ n → a m = b m) → cnt a v n = cnt b v n := by
  intro n
  induction n with
  | zero =>
    intro a b _
    rfl
  | succ n ih =>
    intro a b hab
    simp only [cnt]
    rw [ih a b (fun m h1 h2 => hab m h1 (by omega)), hab (n + 1) (by omega) (by omega)]

lemma cnt_upd (v x : Int) (a : Nat → Int) (p : Nat) :
    ∀ n, 1 ≤ p → p ≤ n →
      cnt (upd a p x) v n + (if a p = v then 1 else 0)
        = cnt a v n + (if x = v then 1 else 0) := by
  intro n
  induction n with
  | zero =>
    intro h1 h2
    omega
  | succ n ih =>
    intro h1 h2
    by_cases e : p = n + 1
    · have hc : cnt (upd a p x) v n = cnt a v n := by
        apply cnt_congr
        intro m hm1 hm2
        simp [upd, show m ≠ p by omega]
      have hx : upd a p x (n + 1) = x := by
        simp [upd, e]
      have hap : a p = a (n + 1) := by rw [e]
      simp only [cnt]
      rw [hc, hx, hap]
      omega
    · have hx : upd a p x (n + 1) = a (n + 1) := by
        simp [upd, show ¬ (n + 1 = p) from by omega]
      have hih := ih h1 (by omega)
      simp only [cnt]
      rw [hx]
      omega

lemma swap_eq_upd (a : Nat → Int) (i j : Nat) :
    swap a i j = upd (upd a i (a j)) j (a i) := by
  funext k
  by_cases e1 : k = i
  · by_cases e2 : k = j
    · subst e1
      subst e2
      simp [swap, upd]
    · subst e1
      simp [swap, upd, e2]
  · by_cases e2 : k = j
    · subst e2
      simp [swap, upd, e1]
    · simp [swap, upd, e1, e2]

lemma swap_same (a : Nat → Int) (i : Nat) : swap a i i = a := by
  funext k
  by_cases ek : k = i
  · rw [show swap a i i k = a i from by simp [swap, ek], ek]
  · simp [swap, ek]

lemma cnt_swap (v : Int) (a : Nat → Int) {i j n : Nat}
    (hi1 : 1 ≤ i) (hin : i ≤ n) (hj1 : 1 ≤ j) (hjn : j ≤ n) :
    cnt (swap a i j) v n = cnt a v n := by
  by_cases e : i = j
  · rw [e, swap_same]
  · rw [swap_eq_upd]
    have h2 := cnt_upd v (a i) (upd a i (a j)) j n hj1 hjn
    have h1 := cnt_upd v (a j) a i n hi1 hin
    have e2 : upd a i (a j) j = a j := by
      simp [upd, Ne.symm e]
    rw [e2] at h2
    omega

lemma heapfy_cnt_aux (n : Nat) (v : Int) (m : Nat) (hnm : n ≤ m) :
    ∀ K a i, n + 1 ≤ K + i → 1 ≤ i → cnt (heapfy a n i) v m = cnt a v m := by
  intro K
  induction K with
  | zero =>
    intro a i hK hi
    rw [heapfy_self (childMax_of_gt (by omega))]
  | succ K ih =>
    intro a i hK hi
    by_cases h : childMax a n i = i
    · rw [heapfy_self h]
    · obtain ⟨hlt, hle⟩ := childMax_ne h
      rw [heapfy_rec h, ih _ _ (by omega) (by omega)]
      exact cnt_swap v a hi (by omega) (by omega) (by omega)

lemma heapfy_cnt {n m : Nat} (v : Int) {a : Nat → Int} {i : Nat}
    (hnm : n ≤ m) (hi : 1 ≤ i) : cnt (heapfy a n i) v m = cnt a v m :=
  heapfy_cnt_aux n v m hnm (n + 1) a i (by omega) hi

lemma buildLoop_cnt (n : Nat) (v : Int) {m : Nat} (hnm : n ≤ m) :
    ∀ k a, cnt (buildLoop n a k) v m = cnt a v m := by
  intro k
  induction k with
  | zero =>
    intro a
    rfl
  | succ k ih =>
    intro a
    simp only [buildLoop]
    rw [ih, heapfy_cnt v hnm (by omega)]

lemma build_cnt (s : HeapState) (n : Nat) (v : Int) :
    cnt (build s n).a v n = cnt s.a v n := by
  show cnt (buildLoop n (upd s.a 0 (-1)) (n / 2)) v n = cnt s.a v n
  rw [buildLoop_cnt n v (le_refl n)]
  apply cnt_congr
  intro m h1 h2
  simp [upd, show m ≠ 0 by omega]

lemma sortLoop_cnt (v : Int) {m : Nat} :
    ∀ hs a, hs ≤ m → cnt ((sortLoop a hs).1) v m = cnt a v m := by
  intro hs
  induction hs with
  | zero =>
    intro a _
    rfl
  | succ hs ih =>
    intro a hle
    simp only [sortLoop]
    rw [ih _ (by omega), heapfy_cnt v (show hs ≤ m by omega) (by omega)]
    exact cnt_swap v a (by omega) hle (by omega) (by omega)

lemma heapsort_cnt (s : HeapState) (n : Nat) (v : Int) :
    cnt (heapsort s n).a v n = cnt s.a v n := by
  show cnt ((sortLoop (build s n).a n).1) v n = cnt s.a v n
  rw [sortLoop_cnt v n (build s n).a (le_refl n), build_cnt]

lemma vals_count (a : Nat → Int) (v : Int) : ∀ n, (vals a n).count v = cnt a v n := by
  intro n
  induction n with
  | zero =>
    simp [vals, cnt]
  | succ n ih =>
    have hite : (if v = a (n + 1) then (1 : Nat) else 0)
        = (if a (n + 1) = v then 1 else 0) := by
      by_cases hv : v = a (n + 1)
      · simp [hv]
      · simp [hv, Ne.symm hv]
    simp only [vals, Multiset.range_succ, Multiset.map_cons, Multiset.count_cons, cnt]
    simp only [vals] at ih
    rw [ih, hite]

/-! ### Termination of heapfy within n + 1 recursive steps -/

lemma heapfyFuel_eq_aux (n : Nat) :
    ∀ f a i, 1 ≤ f → n + 1 ≤ f + i → heapfyFuel f a n i = some (heapfy a n i) := by
  intro f
  induction f with
  | zero =>
    intro a i hf hK
    omega
  | succ f ih =>
    intro a i hf hK
    by_cases h : childMax a n i = i
    · simp only [heapfyFuel]
      rw [if_pos h, heapfy_self h]
    · obtain ⟨hlt, hle⟩ := childMax_ne h
      simp only [heapfyFuel]
      rw [if_neg h, heapfy_rec h]
      exact ih _ _ (by omega) (by omega)

/-! ### The claims -/

/-- C1: for every nonnegative n and every integer array holding n values at
indices 1..n, after heapSort(array, n) completes, the live region is sorted
in non-decreasing order: storage[i] <= storage[i+1] for all 1 <= i < n. -/
theorem claim_C1_heapsort_sorted (s : HeapState) (n i : Nat)
    (h1 : 1 ≤ i) (h2 : i < n) :
    (heapsort s n).a i ≤ (heapsort s n).a (i + 1) := by
  show (sortLoop (build s n).a n).1 i ≤ (sortLoop (build s n).a n).1 (i + 1)
  refine sortLoop_sorted n n (build s n).a (build_isHeap s n) ?_ ?_ i h1 h2
  · intro j hj1 hj2
    exfalso
    omega
  · intro p q hp1 hp2 hq1 hq2
    exfalso
    omega

/-- Witness for C1 at a concrete input. -/
theorem claim_C1_witness :
    1 ≤ 1 ∧ 1 < 2 ∧
      (heapsort (HeapState.mk 0 0 (fun k => if k = 1 then 9 else 3)) 2).a 1
        ≤ (heapsort (HeapState.mk 0 0 (fun k => if k = 1 then 9 else 3)) 2).a 2 :=
  ⟨by decide, by decide,
    claim_C1_heapsort_sorted (HeapState.mk 0 0 (fun k => if k = 1 then 9 else 3)) 2 1
      (by decide) (by decide)⟩

/-- C2: for every nonnegative n and every integer array, the multiset of
values stored at indices 1..n after heapSort(array, n) equals the multiset
of values stored at indices 1..n before the call. -/
theorem claim_C2_heapsort_perm (s : HeapState) (n : Nat) :
    vals (heapsort s n).a n = vals s.a n := by
  rw [Multiset.ext]
  intro v
  rw [vals_count, vals_count, heapsort_cnt]

/-- C3: for every nonnegative n and arbitrary values at indices 1..n, after
buildHeap(array, n) the max-heap property holds over the whole live region:
for every index i in [2, n], storage[i/2] >= storage[i]. -/
theorem claim_C3_build_heap (s : HeapState) (n i : Nat)
    (h2 : 2 ≤ i) (hn : i ≤ n) :
    (build s n).a i ≤ (build s n).a (i / 2) :=
  build_isHeap s n i h2 hn

/-- Witness for C3 at a concrete input. -/
theorem claim_C3_witness :
    2 ≤ 2 ∧ 2 ≤ 3 ∧
      (build (HeapState.mk 0 0 (fun k => (k : Int))) 3).a 2
        ≤ (build (HeapState.mk 0 0 (fun k => (k : Int))) 3).a (2 / 2) :=
  ⟨by decide, by decide,
    claim_C3_build_heap (HeapState.mk 0 0 (fun k => (k : Int))) 3 2 (by decide) (by decide)⟩

/-- C4: buildHeap is idempotent: applying buildHeap(array, n) twice in
succession leaves the array and the heap-state variables in exactly the
same state as applying it once. -/
theorem claim_C4_build_idempotent (s : HeapState) (n : Nat) :
    build (build s n) n = build s n := by
  have e1 : upd (build s n).a 0 (-1) = (build s n).a := by
    funext k
    by_cases e : k = 0
    · rw [e]
      show (-1 : Int) = (build s n).a 0
      exact (build_a_zero s n).symm
    · simp [upd, e]
  show HeapState.mk n n (buildLoop n (upd (build s n).a 0 (-1)) (n / 2)) = build s n
  rw [e1, buildLoop_of_isHeap (build_isHeap s n)]
  rfl

/-- C5: restoreInvariant (heapfy) is locally correct: for 1 <= i <=
liveCount, if the subtrees rooted at 2i and 2i+1 each satisfy the max-heap
property within the live region (or lie outside it), then after the call
the entire subtree rooted at i satisfies the max-heap property. -/
theorem claim_C5_heapfy_restores (a : Nat → Int) (n i : Nat)
    (hi : 1 ≤ i) (hn : i ≤ n)
    (hL : HeapAt a n (2 * i)) (hR : HeapAt a n (2 * i + 1)) :
    HeapAt (heapfy a n i) n i :=
  heapfy_heapAt hi hL hR

/-- Witness for C5 at a concrete input. -/
theorem claim_C5_witness :
    1 ≤ 1 ∧ 1 ≤ 3 ∧
      HeapAt (fun k => if k = 2 then 5 else if k = 3 then 4 else 0) 3 (2 * 1) ∧
      HeapAt (fun k => if k = 2 then 5 else if k = 3 then 4 else 0) 3 (2 * 1 + 1) ∧
      HeapAt (heapfy (fun k => if k = 2 then 5 else if k = 3 then 4 else 0) 3 1) 3 1 :=
  ⟨by decide, by decide, by decide, by decide,
    claim_C5_heapfy_restores (fun k => if k = 2 then 5 else if k = 3 then 4 else 0) 3 1
      (by decide) (by decide) (by decide) (by decide)⟩

/-- C6: restoreInvariant (heapfy) is local: under its precondition, every
array slot that is not a live descendant of i within [1, liveCount] keeps
its value, and the result on the live region depends only on the live
region (the operation neither reads nor writes outside [1, liveCount]). -/
theorem claim_C6_heapfy_local (a : Nat → Int) (n i : Nat)
    (hi : 1 ≤ i) (hn : i ≤ n)
    (hL : HeapAt a n (2 * i)) (hR : HeapAt a n (2 * i + 1)) :
    (∀ j, ¬ (inSub i j = true ∧ 1 ≤ j ∧ j ≤ n) → heapfy a n i j = a j) ∧
      (∀ b, (∀ k, 1 ≤ k → k ≤ n → a k = b k) →
        ∀ j, 1 ≤ j → j ≤ n → heapfy a n i j = heapfy b n i j) := by
  constructor
  · intro j hj
    by_cases hc : inSub i j = true
    · have hj1 : 1 ≤ j := le_trans hi (inSub_le hc)
      have hjn : n < j := by
        by_cases hn2 : j ≤ n
        · exact absurd ⟨hc, hj1, hn2⟩ hj
        · omega
      exact heapfy_high a n i j hjn
    · have hf : inSub i j = false := by
        cases hx : inSub i j
        · rfl
        · exact absurd hx hc
      exact heapfy_frame a n i j hf
  · intro b hab j h1 h2
    exact heapfy_congr hi hab j h1 h2

/-- Witness for C6 at a concrete input. -/
theorem claim_C6_witness :
    1 ≤ 1 ∧ 1 ≤ 3 ∧
      HeapAt (fun k => if k = 2 then 7 else 1) 3 (2 * 1) ∧
      HeapAt (fun k => if k = 2 then 7 else 1) 3 (2 * 1 + 1) ∧
      ((∀ j, ¬ (inSub 1 j = true ∧ 1 ≤ j ∧ j ≤ 3) →
          heapfy (fun k => if k = 2 then 7 else 1) 3 1 j
            = (fun k => if k = 2 then 7 else (1 : Int)) j) ∧
        (∀ b, (∀ k, 1 ≤ k → k ≤ 3 →
            (fun k => if k = 2 then 7 else (1 : Int)) k = b k) →
          ∀ j, 1 ≤ j → j ≤ 3 →
            heapfy (fun k => if k = 2 then 7 else 1) 3 1 j = heapfy b 3 1 j)) :=
  ⟨by decide, by decide, by decide, by decide,
    claim_C6_heapfy_local (fun k => if k = 2 then 7 else 1) 3 1
      (by decide) (by decide) (by decide) (by decide)⟩

/-- C7 counterexample: heapSort(array, 0) does not leave the array fully
unchanged: build writes the sentinel -1 into slot 0, so an array whose
slot 0 held 7 comes back different. -/
theorem claim_C7_counterexample :
    (heapsort (HeapState.mk 3 3 (fun _ => 7)) 0).a 0
      ≠ (HeapState.mk 3 3 (fun _ => (7 : Int))).a 0 := by
  decide

/-- C7 amended: heapSort(array, 0) performs no swaps and leaves every slot
of index at least 1 unchanged, but overwrites slot 0 with the sentinel -1
(and sets the globals); it does not crash. -/
theorem claim_C7_amended (s : HeapState) (j : Nat) (hj : 1 ≤ j) :
    (heapsort s 0).a j = s.a j ∧ (heapsort s 0).a 0 = -1 := by
  constructor
  · show upd s.a 0 (-1) j = s.a j
    simp [upd, show j ≠ 0 by omega]
  · show upd s.a 0 (-1) 0 = -1
    simp [upd]

/-- Witness for the amended C7 at a concrete input. -/
theorem claim_C7_witness :
    1 ≤ 1 ∧
      ((heapsort (HeapState.mk 2 2 (fun _ => 5)) 0).a 1
          = (HeapState.mk 2 2 (fun _ => (5 : Int))).a 1 ∧
        (heapsort (HeapState.mk 2 2 (fun _ => 5)) 0).a 0 = -1) :=
  ⟨by decide, claim_C7_amended (HeapState.mk 2 2 (fun _ => 5)) 1 (by decide)⟩

/-- C8: restoreInvariant (heapfy) terminates for every array, every
liveCount and every starting index i >= 1: the recursion strictly
increases the index while it stays bounded by liveCount, so n + 1 steps of
fuel always suffice and the operation is a total function. -/
theorem claim_C8_heapfy_terminates (a : Nat → Int) (n i : Nat) (hi : 1 ≤ i) :
    heapfyFuel (n + 1) a n i = some (heapfy a n i) :=
  heapfyFuel_eq_aux n (n + 1) a i (by omega) (by omega)

/-- Witness for C8 at a concrete input. -/
theorem claim_C8_witness :
    1 ≤ 2 ∧ heapfyFuel (5 + 1) (fun k => (k : Int)) 5 2
      = some (heapfy (fun k => (k : Int)) 5 2) :=
  ⟨by decide, claim_C8_heapfy_terminates (fun k => (k : Int)) 5 2 (by decide)⟩

/-- C9: for i >= 1 and i > liveCount, restoreInvariant (heapfy) is a safe
no-op: both child comparisons fail their bounds checks, no slot is read or
written, and the array comes back unchanged. -/
theorem claim_C9_heapfy_out_of_range (a : Nat → Int) (n i : Nat)
    (hi : 1 ≤ i) (hn : n < i) : heapfy a n i = a :=
  heapfy_self (childMax_of_gt hn)

/-- Witness for C9 at a concrete input. -/
theorem claim_C9_witness :
    1 ≤ 3 ∧ 2 < 3 ∧
      heapfy (fun (k : Nat) => (k : Int)) 2 3 = (fun (k : Nat) => (k : Int)) :=
  ⟨by decide, by decide,
    claim_C9_heapfy_out_of_range (fun (k : Nat) => (k : Int)) 2 3 (by decide) (by decide)⟩

/-- C10: every call to buildHeap(array, n) assigns n to both globals
heap_size and length and overwrites array[0] with the sentinel -1; after
heapSort(array, n) completes, length = n, heap_size = 0 and array[0] = -1,
whatever the caller had configured before. -/
theorem claim_C10_globals (s : HeapState) (n : Nat) :
    (build s n).length = n ∧ (build s n).heap_size = n ∧ (build s n).a 0 = -1 ∧
      (heapsort s n).length = n ∧ (heapsort s n).heap_size = 0 ∧
      (heapsort s n).a 0 = -1 := by
  refine ⟨rfl, rfl, build_a_zero s n, rfl, ?_, ?_⟩
  · show (sortLoop (build s n).a n).2 = 0
    exact sortLoop_snd n _
  · show (sortLoop (build s n).a n).1 0 = -1
    rw [sortLoop_zero_idx]
    exact build_a_zero s n

end HeapSortCpp
